import Mathlib

/-!
Verification of the chunked file retrieval and line-indexing logic of the
FountainAI FastAPI GitHub proxy.

The Python source (`main.py`, `app/utils/file_utils.py`) is shallowly embedded:

* Python `str` values are modelled as `List Char` (a Python string is a
  sequence of Unicode code points).
* Python `bytes` values are modelled as `List Nat` (each entry < 256 where it
  matters; `bytes.decode("utf-8")` is modelled by `utf8Decode`).
* The GitHub upstream is modelled by the `Upstream` structure: the metadata
  response status and `size` field, the blob bytes, and a status code for each
  ranged chunk request.  `requests` never raising a network-level exception is
  assumed (the `except requests.exceptions.RequestException` handlers in the
  source are therefore never entered); Python `HTTPException`,
  `UnicodeDecodeError` and `IndexError` control flow is modelled with
  `Except PyError`.
* Each `while start_byte < file_size` loop of the source is embedded as a
  recursive function on the same state.  The loop only terminates for a
  positive chunk size (the source always passes `CHUNK_SIZE = 50000`), so the
  embeddings carry a `0 < chunk_size` guard that makes the (otherwise
  divergent) zero-size case return immediately.
-/

namespace FountainProxy

deriving instance DecidableEq for Except

/-- `CHUNK_SIZE = 50000`: 50 KB chunk size for large files (`main.py`). -/
def CHUNK_SIZE : Nat := 50000

/-- The code points Python `str.splitlines` treats as line boundaries:
LF, CR, VT, FF, FS, GS, RS, NEL, LINE SEPARATOR, PARAGRAPH SEPARATOR
(CRLF is handled as a single boundary by `splitlinesKeep` itself). -/
def isLineBreak (c : Char) : Bool :=
  c = '\n' || c = '\r' || c = '\x0b' || c = '\x0c' ||
  c = '\x1c' || c = '\x1d' || c = '\x1e' || c = '\u0085' ||
  c = ' ' || c = ' '

/-- Python `content.endswith("\n")` on a string modelled as `List Char`. -/
def endsWithNL (s : List Char) : Bool := s.getLast? = some '\n'

/-- Python `str.splitlines(keepends=True)`: split at the `isLineBreak`
boundaries, treating CRLF as a single boundary, and keep each line's
terminator attached to it.  Used by `process_chunk` in `main.py`. -/
def splitlinesKeep : List Char → List (List Char)
  | [] => []
  | [c] => [[c]]
  | c :: d :: rest =>
    if c = '\r' ∧ d = '\n' then ['\r', '\n'] :: splitlinesKeep rest
    else if isLineBreak c then [c] :: splitlinesKeep (d :: rest)
    else
      match splitlinesKeep (d :: rest) with
      | [] => [[c]]
      | l :: ls => (c :: l) :: ls

/-- Python `str.splitlines()` (no `keepends`): same boundaries as
`splitlinesKeep` but with the terminators removed from the produced lines.
Used by `get_lines_by_range` in `main.py`. -/
def splitlinesPlain : List Char → List (List Char)
  | [] => []
  | [c] => if isLineBreak c then [[]] else [[c]]
  | c :: d :: rest =>
    if c = '\r' ∧ d = '\n' then [] :: splitlinesPlain rest
    else if isLineBreak c then [] :: splitlinesPlain (d :: rest)
    else
      match splitlinesPlain (d :: rest) with
      | [] => [[c]]
      | l :: ls => (c :: l) :: ls

/-- Remove a line's trailing terminator: the longest break-free prefix.  On
the lines produced by `splitlinesKeep` (break-free text followed by at most
one terminator) this is exactly "drop the terminator". -/
def stripLineEnd (l : List Char) : List Char := l.takeWhile (fun c => !isLineBreak c)

/-- Is `b` a UTF-8 continuation byte (`0x80 ≤ b ≤ 0xBF`)? -/
def isCont (b : Nat) : Bool := 0x80 ≤ b && b ≤ 0xBF

/-- Is `b1 b2` a valid 2-byte UTF-8 sequence (leads `0xC2`-`0xDF`, excluding
the overlong leads `0xC0`/`0xC1`)? -/
def twoByteOK (b1 b2 : Nat) : Bool :=
  (0xC2 ≤ b1 && b1 ≤ 0xDF) && isCont b2

/-- Is `b1 b2 b3` a valid 3-byte UTF-8 sequence (no overlong encodings, no
surrogates)? -/
def threeByteOK (b1 b2 b3 : Nat) : Bool :=
  (0xE0 ≤ b1 && b1 ≤ 0xEF) &&
  (if b1 = 0xE0 then 0xA0 ≤ b2 && b2 ≤ 0xBF
   else if b1 = 0xED then 0x80 ≤ b2 && b2 ≤ 0x9F
   else isCont b2) && isCont b3

/-- Is `b1 b2 b3 b4` a valid 4-byte UTF-8 sequence (no overlong encodings,
nothing beyond U+10FFFF)? -/
def fourByteOK (b1 b2 b3 b4 : Nat) : Bool :=
  (0xF0 ≤ b1 && b1 ≤ 0xF4) &&
  (if b1 = 0xF0 then 0x90 ≤ b2 && b2 ≤ 0xBF
   else if b1 = 0xF4 then 0x80 ≤ b2 && b2 ≤ 0x8F
   else isCont b2) && isCont b3 && isCont b4

/-- The code point of a 2-byte UTF-8 sequence. -/
def utf8Char2 (b1 b2 : Nat) : Char := Char.ofNat ((b1 - 0xC0) * 0x40 + (b2 - 0x80))

/-- The code point of a 3-byte UTF-8 sequence. -/
def utf8Char3 (b1 b2 b3 : Nat) : Char :=
  Char.ofNat ((b1 - 0xE0) * 0x1000 + (b2 - 0x80) * 0x40 + (b3 - 0x80))

/-- The code point of a 4-byte UTF-8 sequence. -/
def utf8Char4 (b1 b2 b3 b4 : Nat) : Char :=
  Char.ofNat ((b1 - 0xF0) * 0x40000 + (b2 - 0x80) * 0x1000 + (b3 - 0x80) * 0x40 + (b4 - 0x80))

/-- Strict UTF-8 decoding of a byte sequence, as performed by Python
`bytes.decode("utf-8")`: rejects truncated sequences, stray continuation
bytes, overlong encodings, surrogates and values beyond U+10FFFF.  Returns
`none` where Python raises `UnicodeDecodeError`. -/
def utf8Decode : List Nat → Option (List Char)
  | [] => some []
  | [b1] => if b1 ≤ 0x7F then some [Char.ofNat b1] else none
  | [b1, b2] =>
    if b1 ≤ 0x7F then (utf8Decode [b2]).map (fun cs => Char.ofNat b1 :: cs)
    else if twoByteOK b1 b2 then some [utf8Char2 b1 b2]
    else none
  | [b1, b2, b3] =>
    if b1 ≤ 0x7F then (utf8Decode [b2, b3]).map (fun cs => Char.ofNat b1 :: cs)
    else if twoByteOK b1 b2 then (utf8Decode [b3]).map (fun cs => utf8Char2 b1 b2 :: cs)
    else if threeByteOK b1 b2 b3 then some [utf8Char3 b1 b2 b3]
    else none
  | b1 :: b2 :: b3 :: b4 :: rest =>
    if b1 ≤ 0x7F then
      (utf8Decode (b2 :: b3 :: b4 :: rest)).map (fun cs => Char.ofNat b1 :: cs)
    else if twoByteOK b1 b2 then
      (utf8Decode (b3 :: b4 :: rest)).map (fun cs => utf8Char2 b1 b2 :: cs)
    else if threeByteOK b1 b2 b3 then
      (utf8Decode (b4 :: rest)).map (fun cs => utf8Char3 b1 b2 b3 :: cs)
    else if fourByteOK b1 b2 b3 b4 then
      (utf8Decode rest).map (fun cs => utf8Char4 b1 b2 b3 b4 :: cs)
    else none

/-- The characters of an ASCII byte sequence (used to evaluate the model on
concrete all-ASCII files, where UTF-8 decoding is the identity on bytes). -/
def asciiChars (blob : List Nat) : List Char := blob.map Char.ofNat

/-- The Python exceptions that drive control flow in the embedded routes. -/
inductive PyError where
  /-- `fastapi.HTTPException(status_code, detail)`. -/
  | http (status : Nat) (detail : String)
  /-- `UnicodeDecodeError` from `bytes.decode("utf-8")`. -/
  | unicodeDecodeError
  /-- `IndexError` from `list.pop()` on an empty list. -/
  | indexError
deriving DecidableEq, Repr

/-- The upstream GitHub API as the routes observe it for one file: the status
of the metadata request (`GET repos/{owner}/{repo}/contents/{path}`), its
response body text, the `size` field of its JSON, the raw blob bytes, and the
status returned for the ranged blob request at each byte offset.  A ranged
request that is honoured returns the byte slice
`blob[start_byte : start_byte + chunk_size]`. -/
structure Upstream where
  metadataStatus : Nat
  metadataBody : String
  fileSize : Nat
  blob : List Nat
  chunkStatus : Nat → Nat

/-- An honest upstream serving exactly the bytes of `blob`: metadata `200`
with the true size, every ranged request honoured with `206`. -/
def Upstream.ofBytes (blob : List Nat) : Upstream :=
  { metadataStatus := 200
    metadataBody := ""
    fileSize := blob.length
    blob := blob
    chunkStatus := fun _ => 206 }

/-- `github_request(f"repos/{owner}/{repo}/contents/{path}")` followed by
`file_data.get("size", 0)`: `github_request` raises
`HTTPException(status, text)` when the status is not in `[200, 201, 204]`
(`main.py` lines 51-70), and the callers read the `size` field. -/
def github_request_contents (u : Upstream) : Except PyError Nat :=
  if u.metadataStatus = 200 ∨ u.metadataStatus = 201 ∨ u.metadataStatus = 204 then
    .ok u.fileSize
  else
    .error (.http u.metadataStatus u.metadataBody)

/-- `get_file_chunk` (`main.py` lines 276-282): issue a ranged blob request
for `bytes=start_byte .. start_byte+chunk_size-1`; any status other than 206
or 200 raises `HTTPException(500, "Error fetching file chunk.")`; otherwise
the body is decoded as UTF-8 (raising `UnicodeDecodeError` on failure). -/
def get_file_chunk (u : Upstream) (start_byte chunk_size : Nat) : Except PyError (List Char) :=
  if u.chunkStatus start_byte ≠ 206 ∧ u.chunkStatus start_byte ≠ 200 then
    .error (.http 500 "Error fetching file chunk.")
  else
    match utf8Decode ((u.blob.drop start_byte).take chunk_size) with
    | some s => .ok s
    | none => .error .unicodeDecodeError

/-- `process_chunk` (`main.py` lines 359-366):

    content = carry_over + chunk
    lines = content.splitlines(keepends=True)
    if not content.endswith("\n"):
        carry_over = lines.pop()
    else:
        carry_over = ""
    return lines, carry_over

`lines.pop()` removes and returns the last element, raising `IndexError`
when `lines` is empty (which happens exactly when `content` is empty). -/
def process_chunk (chunk carry_over : List Char) :
    Except PyError (List (List Char) × List Char) :=
  let content := carry_over ++ chunk
  let lines := splitlinesKeep content
  if endsWithNL content then .ok (lines, [])
  else
    match lines.getLast? with
    | some last => .ok (lines.dropLast, last)
    | none => .error .indexError

/-- `process_chunk` from `app/utils/file_utils.py` (lines 4-13): identical to
the one in `main.py` except that it receives raw bytes and performs
`chunk.decode("utf-8")` itself. -/
def file_utils_process_chunk (chunk : List Nat) (carry_over : List Char) :
    Except PyError (List (List Char) × List Char) :=
  match utf8Decode chunk with
  | none => .error .unicodeDecodeError
  | some decoded =>
    let content := carry_over ++ decoded
    let lines := splitlinesKeep content
    if endsWithNL content then .ok (lines, [])
    else
      match lines.getLast? with
      | some last => .ok (lines.dropLast, last)
      | none => .error .indexError

/-- The loop of `count_total_lines` (`main.py` lines 345-356):

    while start_byte < file_size:
        chunk = get_file_chunk(owner, repo, sha, start_byte, CHUNK_SIZE)
        lines, carry_over = process_chunk(chunk, carry_over)
        total_lines += len(lines)
        start_byte += CHUNK_SIZE

Note that after the loop the final `carry_over` is dropped without being
counted.  Parameterised by the chunk size (the source always passes
`CHUNK_SIZE`). -/
def countLoop (u : Upstream) (file_size chunk_size total_lines : Nat)
    (carry_over : List Char) (start_byte : Nat) : Except PyError Nat :=
  if _h : 0 < chunk_size ∧ start_byte < file_size then
    match get_file_chunk u start_byte chunk_size with
    | .error e => .error e
    | .ok chunk =>
      match process_chunk chunk carry_over with
      | .error e => .error e
      | .ok (lines, carry2) =>
        countLoop u file_size chunk_size (total_lines + lines.length) carry2
          (start_byte + chunk_size)
  else .ok total_lines
termination_by file_size - start_byte
decreasing_by omega

/-- `count_total_lines` (`main.py` lines 322-356) generalised over the chunk
size: fetch the metadata, then run `countLoop` from offset 0 with empty
carry-over. -/
def count_total_lines_sized (u : Upstream) (chunk_size : Nat) : Except PyError Nat :=
  match github_request_contents u with
  | .error e => .error e
  | .ok file_size => countLoop u file_size chunk_size 0 [] 0

/-- `count_total_lines` exactly as in the source (chunk size `CHUNK_SIZE`). -/
def count_total_lines (u : Upstream) : Except PyError Nat :=
  count_total_lines_sized u CHUNK_SIZE

/-- The loop of `get_file_content` (`main.py` lines 265-273):

    while start_byte < file_size:
        chunk = get_file_chunk(owner, repo, sha, start_byte, CHUNK_SIZE)
        total_content += chunk
        start_byte += CHUNK_SIZE
-/
def contentLoop (u : Upstream) (file_size chunk_size : Nat)
    (total_content : List Char) (start_byte : Nat) : Except PyError (List Char) :=
  if _h : 0 < chunk_size ∧ start_byte < file_size then
    match get_file_chunk u start_byte chunk_size with
    | .error e => .error e
    | .ok chunk => contentLoop u file_size chunk_size (total_content ++ chunk) (start_byte + chunk_size)
  else .ok total_content
termination_by file_size - start_byte
decreasing_by omega

/-- `get_file_content` (`main.py` lines 242-273): fetch the metadata, then
concatenate every decoded chunk. -/
def get_file_content (u : Upstream) : Except PyError (List Char) :=
  match github_request_contents u with
  | .error e => .error e
  | .ok file_size => contentLoop u file_size CHUNK_SIZE [] 0

/-- The detail string of the 400 response of `get_lines_by_range`. -/
def rangeErrDetail (total_lines : Nat) : String :=
  "Start line is out of range. The file has " ++ toString total_lines ++ " lines."

/-- Clamp one Python slice index `i` for a list of length `len`
(negative indices count from the end, then the result is clamped to
`[0, len]`). -/
def pyIdx (len : Nat) (i : Int) : Nat :=
  if i < 0 then ((len : Int) + i).toNat else min i.toNat len

/-- Python list slicing `xs[a:b]` (step 1). -/
def pySlice {α : Type} (xs : List α) (a b : Int) : List α :=
  (xs.take (pyIdx xs.length b)).drop (pyIdx xs.length a)

/-- `get_lines_by_range` (`main.py` lines 290-303):

    total_lines = count_total_lines(owner, repo, path)
    if start_line < 0 or start_line >= total_lines:
        raise HTTPException(status_code=400, detail=...)
    if end_line is None or end_line > total_lines:
        end_line = total_lines
    total_content = get_file_content(owner, repo, path)["content"]
    lines = total_content.splitlines()
    return {"lines": lines[start_line:end_line], "max_lines": total_lines}

The surrounding `try` only catches `requests.exceptions.RequestException`,
so every `HTTPException` raised inside propagates unchanged. -/
def get_lines_by_range (u : Upstream) (start_line : Int) (end_line : Option Int) :
    Except PyError (List (List Char) × Nat) :=
  match count_total_lines u with
  | .error e => .error e
  | .ok total_lines =>
    if start_line < 0 ∨ (total_lines : Int) ≤ start_line then
      .error (.http 400 (rangeErrDetail total_lines))
    else
      let end2 : Int :=
        match end_line with
        | none => (total_lines : Int)
        | some e => if (total_lines : Int) < e then (total_lines : Int) else e
      match get_file_content u with
      | .error e => .error e
      | .ok total_content =>
        .ok (pySlice (splitlinesPlain total_content) start_line end2, total_lines)

/-- The sequence of byte offsets at which the `while start_byte < file_size`
loops issue chunk fetches (the spec's `ChunkCursor.next_byte_offset` values):
starting from `start_byte`, step `chunk_size`, while below `file_size`. -/
def fetchOffsets (file_size chunk_size start_byte : Nat) : List Nat :=
  if _h : 0 < chunk_size ∧ start_byte < file_size then
    start_byte :: fetchOffsets file_size chunk_size (start_byte + chunk_size)
  else []
termination_by file_size - start_byte
decreasing_by omega

/-- Fetch the chunks at a given list of offsets, stopping at the first
failure: the sequence of `get_file_chunk` results a loop observes. -/
def chunkFetchAll (u : Upstream) (chunk_size : Nat) : List Nat → Except PyError (List (List Char))
  | [] => .ok []
  | o :: os =>
    match get_file_chunk u o chunk_size with
    | .error e => .error e
    | .ok ch =>
      match chunkFetchAll u chunk_size os with
      | .error e => .error e
      | .ok chs => .ok (ch :: chs)

/-- Split a list into consecutive chunks of `k` elements (the final chunk may
be shorter): the pieces a byte-range loop with chunk size `k` retrieves. -/
def chunksOf {α : Type} (k : Nat) (s : List α) : List (List α) :=
  if hk : 0 < k ∧ s.isEmpty = false then s.take k :: chunksOf k (s.drop k) else []
termination_by s.length
decreasing_by
  simp only [List.length_drop]
  have : 0 < s.length := by
    cases s with
    | nil => simp [List.isEmpty] at hk
    | cons x xs => simp
  omega

/-- Run the `process_chunk` step of the full scan over a list of decoded
chunks, threading the carry-over and collecting every yielded line
(the full-scan construction of the spec's LineBuffer). -/
def scanChunks (carry_over : List Char) : List (List Char) → Except PyError (List (List Char) × List Char)
  | [] => .ok ([], carry_over)
  | ch :: rest =>
    match process_chunk ch carry_over with
    | .error e => .error e
    | .ok (lines, carry2) =>
      match scanChunks carry2 rest with
      | .error e => .error e
      | .ok (more, final) => .ok (lines ++ more, final)

/-- The un-chunked reference result of the full scan on a whole content
string: the complete lines, and the trailing carry-over (empty when the
content ends in `"\n"`). -/
def fullScan (content : List Char) : List (List Char) × List Char :=
  let lines := splitlinesKeep content
  if endsWithNL content then (lines, [])
  else (lines.dropLast, lines.getLastD [])

/-- The carry-over an un-chunked `process_chunk` run on `s` would retain:
the last line of `s`. -/
def carryOf (s : List Char) : List Char := (splitlinesKeep s).getLastD []

/-- The shape every carry-over string has: empty, or a single `splitlines`
segment (break-free text optionally ending in one non-`"\n"` terminator). -/
def Carryable (c : List Char) : Prop :=
  c = [] ∨ (splitlinesKeep c = [c] ∧ endsWithNL c = false)

/-! ### Properties of `splitlinesKeep` -/

theorem splitlinesKeep_eq_nil_iff {s : List Char} : splitlinesKeep s = [] ↔ s = [] := by
  induction s using splitlinesKeep.induct with
  | case1 => simp [splitlinesKeep]
  | case2 c => simp [splitlinesKeep]
  | case3 c d rest h ih => simp [splitlinesKeep, h]
  | case4 c d rest h1 h2 ih => rw [splitlinesKeep, if_neg h1, if_pos h2]; simp
  | case5 c d rest h1 h2 heq ih => simp [heq] at ih
  | case6 c d rest h1 h2 l ls heq ih =>
    rw [splitlinesKeep, if_neg h1, if_neg h2, heq]; simp

theorem splitlinesKeep_crlf (t : List Char) :
    splitlinesKeep ('\r' :: '\n' :: t) = ['\r', '\n'] :: splitlinesKeep t := by
  rw [splitlinesKeep]
  simp

theorem splitlinesKeep_cons_break {c : Char} (t : List Char) (hc : isLineBreak c = true)
    (hcr : ¬(c = '\r' ∧ t.head? = some '\n')) :
    splitlinesKeep (c :: t) = [c] :: splitlinesKeep t := by
  cases t with
  | nil => rfl
  | cons d rest =>
    rw [splitlinesKeep, if_neg (by simp at hcr; tauto), if_pos hc]

theorem splitlinesKeep_cons_of_not_break {c : Char} {t l : List Char} {ls : List (List Char)}
    (hc : isLineBreak c = false) (ht : splitlinesKeep t = l :: ls) :
    splitlinesKeep (c :: t) = (c :: l) :: ls := by
  have hcr : c ≠ '\r' := by
    intro h
    rw [h] at hc
    simp [isLineBreak] at hc
  cases t with
  | nil => simp [splitlinesKeep] at ht
  | cons d rest =>
    rw [splitlinesKeep, if_neg (by tauto), if_neg (by simp [hc]), ht]

theorem flatten_splitlinesKeep (s : List Char) : (splitlinesKeep s).flatten = s := by
  induction s using splitlinesKeep.induct with
  | case1 => rfl
  | case2 c => rfl
  | case3 c d rest h ih =>
    obtain ⟨hc, hd⟩ := h
    subst hc; subst hd
    rw [splitlinesKeep_crlf]
    simp [ih]
  | case4 c d rest h1 h2 ih =>
    rw [splitlinesKeep, if_neg h1, if_pos h2]
    simp_all
  | case5 c d rest h1 h2 heq ih => simp [heq] at ih
  | case6 c d rest h1 h2 l ls heq ih =>
    rw [splitlinesKeep, if_neg h1, if_neg h2, heq]
    rw [heq] at ih
    simp_all

theorem splitlinesKeep_elem_ne_nil {s : List Char} :
    ∀ e ∈ splitlinesKeep s, e ≠ [] := by
  induction s using splitlinesKeep.induct with
  | case1 => simp [splitlinesKeep]
  | case2 c => simp [splitlinesKeep]
  | case3 c d rest h ih =>
    obtain ⟨hc, hd⟩ := h
    subst hc; subst hd
    rw [splitlinesKeep_crlf]
    intro e he
    rcases List.mem_cons.mp he with h' | h'
    · simp [h']
    · exact ih e h'
  | case4 c d rest h1 h2 ih =>
    rw [splitlinesKeep, if_neg h1, if_pos h2]
    intro e he
    rcases List.mem_cons.mp he with h' | h'
    · simp [h']
    · exact ih e h'
  | case5 c d rest h1 h2 heq ih =>
    exact absurd (splitlinesKeep_eq_nil_iff.mp heq) (by simp)
  | case6 c d rest h1 h2 l ls heq ih =>
    rw [splitlinesKeep, if_neg h1, if_neg h2, heq]
    rw [heq] at ih
    intro e he
    rcases List.mem_cons.mp he with h' | h'
    · simp [h']
    · exact ih e (List.mem_cons_of_mem _ h')

theorem getLastD_irrel {α : Type} (a b : α) (L : List α) (h : L ≠ []) :
    L.getLastD a = L.getLastD b := by
  cases L with
  | nil => simp at h
  | cons z zs => rw [List.getLastD_cons, List.getLastD_cons]

theorem getLastD_cons_ne {α : Type} (x d : α) (L : List α) (h : L ≠ []) :
    (x :: L).getLastD d = L.getLastD d := by
  rw [List.getLastD_cons]
  exact getLastD_irrel x d L h

theorem endsWithNL_cons {c : Char} {t : List Char} (h : t ≠ []) :
    endsWithNL (c :: t) = endsWithNL t := by
  cases t with
  | nil => simp at h
  | cons x xs => simp [endsWithNL, List.getLast?_cons_cons]

theorem splitlinesKeep_append_endsNL (a b : List Char) (h : endsWithNL a = true) :
    splitlinesKeep (a ++ b) = splitlinesKeep a ++ splitlinesKeep b := by
  induction a using splitlinesKeep.induct with
  | case1 => simp [endsWithNL] at h
  | case2 c =>
    have hc : c = '\n' := by simpa [endsWithNL] using h
    subst hc
    rw [List.singleton_append,
      splitlinesKeep_cons_break b (by decide) (fun hx => absurd hx.1 (by decide))]
    simp [splitlinesKeep]
  | case3 c d rest hcd ih =>
    obtain ⟨hc, hd⟩ := hcd; subst hc; subst hd
    by_cases hr : rest = []
    · subst hr
      simp only [List.cons_append, List.nil_append, splitlinesKeep_crlf]
      simp [splitlinesKeep]
    · have h' : endsWithNL rest = true := by
        rw [endsWithNL_cons (by simp), endsWithNL_cons hr] at h; exact h
      simp only [List.cons_append, splitlinesKeep_crlf]
      rw [ih h']
  | case4 c d rest h1 h2 ih =>
    have h' : endsWithNL (d :: rest) = true := by
      rw [endsWithNL_cons (by simp)] at h; exact h
    have hcr : ∀ t : List Char, t.head? = some d → ¬(c = '\r' ∧ t.head? = some '\n') := by
      intro t ht hx
      rw [ht] at hx
      exact h1 ⟨hx.1, by have h3 := hx.2; simp only [Option.some.injEq] at h3; exact h3⟩
    rw [List.cons_append, List.cons_append,
      splitlinesKeep_cons_break (d :: (rest ++ b)) h2 (hcr _ rfl),
      splitlinesKeep_cons_break (d :: rest) h2 (hcr _ rfl)]
    rw [← List.cons_append, ih h']
    simp
  | case5 c d rest h1 h2 heq ih =>
    exact absurd (splitlinesKeep_eq_nil_iff.mp heq) (by simp)
  | case6 c d rest h1 h2 l ls heq ih =>
    have hc : isLineBreak c = false := by simpa using h2
    have h' : endsWithNL (d :: rest) = true := by
      rw [endsWithNL_cons (by simp)] at h; exact h
    have ih' := ih h'
    rw [heq] at ih'
    rw [List.cons_append, List.cons_append, ← List.cons_append,
      splitlinesKeep_cons_of_not_break hc (by rw [ih']; rfl),
      splitlinesKeep_cons_of_not_break hc heq]
    simp

theorem splitlinesKeep_append_not_endsNL (a b : List Char) (ha : a ≠ [])
    (h : endsWithNL a = false) :
    splitlinesKeep (a ++ b) =
      (splitlinesKeep a).dropLast ++ splitlinesKeep (carryOf a ++ b) := by
  induction a using splitlinesKeep.induct with
  | case1 => exact absurd rfl ha
  | case2 c => simp [carryOf, splitlinesKeep]
  | case3 c d rest hcd ih =>
    obtain ⟨hc, hd⟩ := hcd; subst hc; subst hd
    by_cases hr : rest = []
    · subst hr; simp [endsWithNL] at h
    · have h' : endsWithNL rest = false := by
        rw [endsWithNL_cons (by simp), endsWithNL_cons hr] at h; exact h
      have hne : splitlinesKeep rest ≠ [] := by
        simpa [splitlinesKeep_eq_nil_iff] using hr
      have hcar : carryOf ('\r' :: '\n' :: rest) = carryOf rest := by
        rw [carryOf, splitlinesKeep_crlf, getLastD_cons_ne _ _ _ hne, carryOf]
      simp only [List.cons_append, splitlinesKeep_crlf]
      rw [ih hr h', hcar]
      obtain ⟨m, ms, hms⟩ : ∃ m ms, splitlinesKeep rest = m :: ms := by
        cases hx : splitlinesKeep rest with
        | nil => exact absurd hx hne
        | cons m ms => exact ⟨m, ms, rfl⟩
      rw [hms]
      simp
  | case4 c d rest h1 h2 ih =>
    have h' : endsWithNL (d :: rest) = false := by
      rw [endsWithNL_cons (by simp)] at h; exact h
    have hne : splitlinesKeep (d :: rest) ≠ [] := by
      simp [splitlinesKeep_eq_nil_iff]
    have hcr : ∀ t : List Char, t.head? = some d → ¬(c = '\r' ∧ t.head? = some '\n') := by
      intro t ht hx
      rw [ht] at hx
      exact h1 ⟨hx.1, by have h3 := hx.2; simp only [Option.some.injEq] at h3; exact h3⟩
    have hcar : carryOf (c :: d :: rest) = carryOf (d :: rest) := by
      rw [carryOf, splitlinesKeep_cons_break (d :: rest) h2 (hcr _ rfl),
        getLastD_cons_ne _ _ _ hne, carryOf]
    rw [List.cons_append, List.cons_append,
      splitlinesKeep_cons_break (d :: (rest ++ b)) h2 (hcr _ rfl),
      splitlinesKeep_cons_break (d :: rest) h2 (hcr _ rfl),
      ← List.cons_append, ih (by simp) h', hcar]
    obtain ⟨m, ms, hms⟩ : ∃ m ms, splitlinesKeep (d :: rest) = m :: ms := by
      cases hx : splitlinesKeep (d :: rest) with
      | nil => exact absurd hx hne
      | cons m ms => exact ⟨m, ms, rfl⟩
    rw [hms]
    simp
  | case5 c d rest h1 h2 heq ih =>
    exact absurd (splitlinesKeep_eq_nil_iff.mp heq) (by simp)
  | case6 c d rest h1 h2 l ls heq ih =>
    have hc : isLineBreak c = false := by simpa using h2
    have h' : endsWithNL (d :: rest) = false := by
      rw [endsWithNL_cons (by simp)] at h; exact h
    have hl : l ≠ [] := splitlinesKeep_elem_ne_nil l (by rw [heq]; simp)
    have ih' := ih (by simp) h'
    rw [heq] at ih'
    rw [List.cons_append, List.cons_append, ← List.cons_append]
    rw [splitlinesKeep_cons_of_not_break hc heq]
    cases ls with
    | nil =>
      -- splitlinesKeep (d :: rest) = [l]: the whole of d :: rest is one line
      have hcar : carryOf (d :: rest) = l := by rw [carryOf, heq]; rfl
      have hcar2 : carryOf (c :: d :: rest) = c :: l := by
        rw [carryOf, splitlinesKeep_cons_of_not_break hc heq]; rfl
      rw [hcar] at ih'
      simp only [List.dropLast_single, List.nil_append] at ih' ⊢
      rw [hcar2]
      -- goal: splitlinesKeep (c :: ((d :: rest) ++ b)) = splitlinesKeep ((c :: l) ++ b)
      obtain ⟨m, ms, hms⟩ : ∃ m ms, splitlinesKeep (l ++ b) = m :: ms := by
        cases hx : splitlinesKeep (l ++ b) with
        | nil =>
          exact absurd (splitlinesKeep_eq_nil_iff.mp hx) (by simp [hl])
        | cons m ms => exact ⟨m, ms, rfl⟩
      rw [hms] at ih'
      rw [splitlinesKeep_cons_of_not_break hc ih', List.cons_append,
        splitlinesKeep_cons_of_not_break hc hms]
    | cons l2 ls2 =>
      have hne2 : (l2 :: ls2 : List (List Char)) ≠ [] := by simp
      have hcar : carryOf (c :: d :: rest) = carryOf (d :: rest) := by
        rw [carryOf, splitlinesKeep_cons_of_not_break hc heq, carryOf, heq,
          getLastD_cons_ne _ _ _ hne2, getLastD_cons_ne _ _ _ hne2]
      rw [hcar]
      -- ih' : splitlinesKeep ((d::rest) ++ b) = (l :: l2 :: ls2).dropLast ++ ...
      have ih'' : splitlinesKeep ((d :: rest) ++ b) =
          l :: ((l2 :: ls2).dropLast ++ splitlinesKeep (carryOf (d :: rest) ++ b)) := by
        rw [ih']
        simp [List.dropLast]
      rw [splitlinesKeep_cons_of_not_break hc ih'']
      simp [List.dropLast]

theorem getLast?_cons_ne {α : Type} (c : α) (t : List α) (h : t ≠ []) :
    (c :: t).getLast? = t.getLast? := by
  cases t with
  | nil => simp at h
  | cons x xs => rw [List.getLast?_cons_cons]

theorem getLastD_append {α : Type} (A B : List α) (d : α) (h : B ≠ []) :
    (A ++ B).getLastD d = B.getLastD d := by
  induction A with
  | nil => rfl
  | cons x xs ih =>
    rw [List.cons_append, getLastD_cons_ne _ _ _ (by simp [h] : xs ++ B ≠ [])]
    exact ih

theorem splitlinesKeep_elem_self {s : List Char} :
    ∀ e ∈ splitlinesKeep s, splitlinesKeep e = [e] := by
  induction s using splitlinesKeep.induct with
  | case1 => simp [splitlinesKeep]
  | case2 c => simp [splitlinesKeep]
  | case3 c d rest h ih =>
    obtain ⟨hc, hd⟩ := h; subst hc; subst hd
    rw [splitlinesKeep_crlf]
    intro e he
    rcases List.mem_cons.mp he with h' | h'
    · subst h'; rfl
    · exact ih e h'
  | case4 c d rest h1 h2 ih =>
    rw [splitlinesKeep, if_neg h1, if_pos h2]
    intro e he
    rcases List.mem_cons.mp he with h' | h'
    · subst h'; rfl
    · exact ih e h'
  | case5 c d rest h1 h2 heq ih =>
    exact absurd (splitlinesKeep_eq_nil_iff.mp heq) (by simp)
  | case6 c d rest h1 h2 l ls heq ih =>
    have hc : isLineBreak c = false := by simpa using h2
    rw [splitlinesKeep_cons_of_not_break hc heq]
    intro e he
    rcases List.mem_cons.mp he with h' | h'
    · subst h'
      have hl : splitlinesKeep l = [l] := ih l (by rw [heq]; simp)
      exact splitlinesKeep_cons_of_not_break hc hl
    · exact ih e (by rw [heq]; exact List.mem_cons_of_mem _ h')

theorem carryOf_ne_nil {s : List Char} (hs : s ≠ []) : carryOf s ≠ [] := by
  have h1 : splitlinesKeep s ≠ [] := by
    simpa [splitlinesKeep_eq_nil_iff] using hs
  have h2 : (splitlinesKeep s).getLastD [] ∈ splitlinesKeep s := by
    rw [List.getLastD_eq_getLast? , List.getLast?_eq_getLast _ h1]
    exact List.getLast_mem h1
  exact splitlinesKeep_elem_ne_nil _ h2

theorem carryOf_mem {s : List Char} (hs : s ≠ []) : carryOf s ∈ splitlinesKeep s := by
  have h1 : splitlinesKeep s ≠ [] := by
    simpa [splitlinesKeep_eq_nil_iff] using hs
  rw [carryOf, List.getLastD_eq_getLast?, List.getLast?_eq_getLast _ h1]
  exact List.getLast_mem h1

theorem splitlinesKeep_carryOf {s : List Char} (hs : s ≠ []) :
    splitlinesKeep (carryOf s) = [carryOf s] :=
  splitlinesKeep_elem_self _ (carryOf_mem hs)

theorem carryOf_getLast? {s : List Char} (hs : s ≠ []) :
    (carryOf s).getLast? = s.getLast? := by
  induction s using splitlinesKeep.induct with
  | case1 => simp at hs
  | case2 c => rfl
  | case3 c d rest h ih =>
    obtain ⟨hc, hd⟩ := h; subst hc; subst hd
    by_cases hr : rest = []
    · subst hr; rfl
    · have hne : splitlinesKeep rest ≠ [] := by
        simpa [splitlinesKeep_eq_nil_iff] using hr
      have hcar : carryOf ('\r' :: '\n' :: rest) = carryOf rest := by
        rw [carryOf, splitlinesKeep_crlf, getLastD_cons_ne _ _ _ hne, carryOf]
      rw [hcar, ih hr, List.getLast?_cons_cons, getLast?_cons_ne _ _ hr]
  | case4 c d rest h1 h2 ih =>
    have hne : splitlinesKeep (d :: rest) ≠ [] := by simp [splitlinesKeep_eq_nil_iff]
    have hcr : ¬(c = '\r' ∧ (d :: rest).head? = some '\n') := by
      intro hx
      exact h1 ⟨hx.1, by have h3 := hx.2; simp only [List.head?, Option.some.injEq] at h3; exact h3⟩
    have hcar : carryOf (c :: d :: rest) = carryOf (d :: rest) := by
      rw [carryOf, splitlinesKeep_cons_break (d :: rest) h2 hcr,
        getLastD_cons_ne _ _ _ hne, carryOf]
    rw [hcar, ih (by simp), List.getLast?_cons_cons]
  | case5 c d rest h1 h2 heq ih =>
    exact absurd (splitlinesKeep_eq_nil_iff.mp heq) (by simp)
  | case6 c d rest h1 h2 l ls heq ih =>
    have hc : isLineBreak c = false := by simpa using h2
    have hl : l ≠ [] := splitlinesKeep_elem_ne_nil l (by rw [heq]; simp)
    cases ls with
    | nil =>
      have hcar : carryOf (c :: d :: rest) = c :: l := by
        rw [carryOf, splitlinesKeep_cons_of_not_break hc heq]; rfl
      have hcar2 : carryOf (d :: rest) = l := by rw [carryOf, heq]; rfl
      rw [hcar, getLast?_cons_ne _ _ hl, List.getLast?_cons_cons]
      rw [hcar2] at ih
      exact ih (by simp)
    | cons l2 ls2 =>
      have hne2 : (l2 :: ls2 : List (List Char)) ≠ [] := by simp
      have hcar : carryOf (c :: d :: rest) = carryOf (d :: rest) := by
        rw [carryOf, splitlinesKeep_cons_of_not_break hc heq, carryOf, heq,
          getLastD_cons_ne _ _ _ hne2, getLastD_cons_ne _ _ _ hne2]
      rw [hcar, ih (by simp), List.getLast?_cons_cons]

theorem carryable_carryOf {s : List Char} (hs : s ≠ []) (h : endsWithNL s = false) :
    Carryable (carryOf s) := by
  refine Or.inr ⟨splitlinesKeep_carryOf hs, ?_⟩
  rw [endsWithNL, carryOf_getLast? hs]
  rw [endsWithNL] at h
  exact h

/-! ### `fullScan` and its append laws -/

theorem fullScan_append_endsNL (a s : List Char) (h : endsWithNL a = true) :
    fullScan (a ++ s) = (splitlinesKeep a ++ (fullScan s).1, (fullScan s).2) := by
  by_cases hs : s = []
  · subst hs
    simp [fullScan, splitlinesKeep, h, endsWithNL] at h ⊢
    simp [h]
  · have hends : endsWithNL (a ++ s) = endsWithNL s := by
      rw [endsWithNL, endsWithNL, List.getLast?_append_of_ne_nil _ hs]
    have hsplit := splitlinesKeep_append_endsNL a s h
    have hne : splitlinesKeep s ≠ [] := by simpa [splitlinesKeep_eq_nil_iff] using hs
    rw [fullScan, fullScan, hends, hsplit]
    by_cases h2 : endsWithNL s = true
    · simp [h2]
    · rw [if_neg h2, if_neg h2]
      rw [List.dropLast_append_of_ne_nil _ hne, getLastD_append _ _ _ hne]

theorem fullScan_append_not_endsNL (a s : List Char) (ha : a ≠ [])
    (h : endsWithNL a = false) :
    fullScan (a ++ s) = ((splitlinesKeep a).dropLast ++ (fullScan (carryOf a ++ s)).1,
      (fullScan (carryOf a ++ s)).2) := by
  have hcarne : carryOf a ≠ [] := carryOf_ne_nil ha
  have hends : endsWithNL (a ++ s) = endsWithNL (carryOf a ++ s) := by
    by_cases hs : s = []
    · subst hs
      rw [List.append_nil, List.append_nil, endsWithNL, endsWithNL, carryOf_getLast? ha]
    · rw [endsWithNL, endsWithNL, List.getLast?_append_of_ne_nil _ hs,
        List.getLast?_append_of_ne_nil _ hs]
  have hsplit := splitlinesKeep_append_not_endsNL a s ha h
  have hne : splitlinesKeep (carryOf a ++ s) ≠ [] := by
    simp [splitlinesKeep_eq_nil_iff, hcarne]
  rw [fullScan, fullScan, hends, hsplit]
  by_cases h2 : endsWithNL (carryOf a ++ s) = true
  · simp [h2]
  · rw [if_neg h2, if_neg h2]
    rw [List.dropLast_append_of_ne_nil _ hne, getLastD_append _ _ _ hne]

theorem getLast?_eq_some_getLastD {α : Type} (L : List α) (d : α) (h : L ≠ []) :
    L.getLast? = some (L.getLastD d) := by
  rw [List.getLastD_eq_getLast?, List.getLast?_eq_getLast _ h]
  rfl

theorem process_chunk_eq_fullScan (chunk carry : List Char) (h : carry ++ chunk ≠ []) :
    process_chunk chunk carry = .ok (fullScan (carry ++ chunk)) := by
  rw [process_chunk, fullScan]
  by_cases h2 : endsWithNL (carry ++ chunk) = true
  · simp [h2]
  · have hne : splitlinesKeep (carry ++ chunk) ≠ [] := by
      simpa [splitlinesKeep_eq_nil_iff] using h
    rw [if_neg h2, if_neg h2, getLast?_eq_some_getLastD _ [] hne]

theorem scanChunks_eq_fullScan (chunks : List (List Char)) :
    ∀ carry : List Char, (∀ ch ∈ chunks, ch ≠ []) → Carryable carry →
      scanChunks carry chunks = .ok (fullScan (carry ++ chunks.flatten)) := by
  induction chunks with
  | nil =>
    intro carry hch hc
    rcases hc with hc | ⟨hsplit, hnl⟩
    · subst hc; rfl
    · simp only [scanChunks, List.flatten_nil, List.append_nil]
      rw [fullScan, if_neg (by simp [hnl]), hsplit]
      rfl
  | cons ch rest ih =>
    intro carry hch hc
    have hchne : ch ≠ [] := hch ch (by simp)
    have hcontent : carry ++ ch ≠ [] := by simp [hchne]
    rw [scanChunks, process_chunk_eq_fullScan ch carry hcontent]
    by_cases h2 : endsWithNL (carry ++ ch) = true
    · have hfs : fullScan (carry ++ ch) = (splitlinesKeep (carry ++ ch), []) := by
        rw [fullScan, if_pos h2]
      rw [hfs]
      dsimp only
      have ihs := ih [] (fun c hm => hch c (List.mem_cons_of_mem _ hm)) (Or.inl rfl)
      simp only [List.nil_append] at ihs
      rw [ihs]
      have happ := fullScan_append_endsNL (carry ++ ch) rest.flatten h2
      simp only [List.flatten_cons, ← List.append_assoc, happ]
    · have hfs : fullScan (carry ++ ch) =
          ((splitlinesKeep (carry ++ ch)).dropLast, carryOf (carry ++ ch)) := by
        rw [fullScan, if_neg h2]; rfl
      rw [hfs]
      dsimp only
      have hcar : Carryable (carryOf (carry ++ ch)) :=
        carryable_carryOf hcontent (eq_false_of_ne_true h2)
      have ihs := ih (carryOf (carry ++ ch))
        (fun c hm => hch c (List.mem_cons_of_mem _ hm)) hcar
      rw [ihs]
      have happ := fullScan_append_not_endsNL (carry ++ ch) rest.flatten hcontent
        (eq_false_of_ne_true h2)
      simp only [List.flatten_cons, ← List.append_assoc, happ]

theorem scanChunks_ok_eq_fullScan (chunks : List (List Char)) :
    ∀ (carry : List Char) (r : List (List Char) × List Char), Carryable carry →
      scanChunks carry chunks = .ok r → r = fullScan (carry ++ chunks.flatten) := by
  induction chunks with
  | nil =>
    intro carry r hc hok
    simp only [scanChunks, Except.ok.injEq] at hok
    subst hok
    simp only [List.flatten_nil, List.append_nil]
    rcases hc with hc | ⟨hsplit, hnl⟩
    · subst hc; rfl
    · rw [fullScan, if_neg (by simp [hnl]), hsplit]
      rfl
  | cons ch rest ih =>
    intro carry r hc hok
    rw [scanChunks] at hok
    cases hpc : process_chunk ch carry with
    | error err => rw [hpc] at hok; exact absurd hok (by simp)
    | ok p =>
      obtain ⟨lines, carry2⟩ := p
      rw [hpc] at hok
      dsimp only at hok
      cases hsc : scanChunks carry2 rest with
      | error err => rw [hsc] at hok; exact absurd hok (by simp)
      | ok q =>
        obtain ⟨more, fin⟩ := q
        rw [hsc] at hok
        dsimp only at hok
        simp only [Except.ok.injEq] at hok
        have hcontent : carry ++ ch ≠ [] := by
          intro hx
          rw [process_chunk, hx] at hpc
          simp [splitlinesKeep, endsWithNL] at hpc
        have hpc2 := process_chunk_eq_fullScan ch carry hcontent
        rw [hpc] at hpc2
        simp only [Except.ok.injEq] at hpc2
        by_cases h2 : endsWithNL (carry ++ ch) = true
        · have hfs : fullScan (carry ++ ch) = (splitlinesKeep (carry ++ ch), []) := by
            rw [fullScan, if_pos h2]
          rw [hfs] at hpc2
          simp only [Prod.mk.injEq] at hpc2
          have ihr := ih carry2 (more, fin) (by rw [hpc2.2]; exact Or.inl rfl) hsc
          rw [hpc2.2, List.nil_append] at ihr
          have happ := fullScan_append_endsNL (carry ++ ch) rest.flatten h2
          rw [← hok, hpc2.1]
          rw [List.flatten_cons, ← List.append_assoc, happ, ← ihr]
        · have hfs : fullScan (carry ++ ch) =
              ((splitlinesKeep (carry ++ ch)).dropLast, carryOf (carry ++ ch)) := by
            rw [fullScan, if_neg h2]; rfl
          rw [hfs] at hpc2
          simp only [Prod.mk.injEq] at hpc2
          have hcar : Carryable (carryOf (carry ++ ch)) :=
            carryable_carryOf hcontent (eq_false_of_ne_true h2)
          have ihr := ih carry2 (more, fin) (by rw [hpc2.2]; exact hcar) hsc
          rw [hpc2.2] at ihr
          have happ := fullScan_append_not_endsNL (carry ++ ch) rest.flatten hcontent
            (eq_false_of_ne_true h2)
          rw [← hok, hpc2.1]
          rw [List.flatten_cons, ← List.append_assoc, happ, ← ihr]

theorem chunksOf_flatten {α : Type} (k : Nat) (s : List α) (hk : 0 < k) :
    (chunksOf k s).flatten = s := by
  induction s using chunksOf.induct k with
  | case1 s h ih =>
    rw [chunksOf, dif_pos h, List.flatten_cons, ih, List.take_append_drop]
  | case2 s h =>
    rw [chunksOf, dif_neg h]
    rcases List.isEmpty_iff.mp (by
      rcases Decidable.not_and_iff_or_not.mp h with h' | h'
      · exact absurd hk h'
      · simpa using h') with rfl
    rfl

theorem chunksOf_elem_ne_nil {α : Type} (k : Nat) (s : List α) :
    ∀ c ∈ chunksOf k s, c ≠ [] := by
  induction s using chunksOf.induct k with
  | case1 s h ih =>
    rw [chunksOf, dif_pos h]
    intro c hm
    rcases List.mem_cons.mp hm with h' | h'
    · subst h'
      simp only [ne_eq, List.take_eq_nil_iff]
      push_neg
      exact ⟨by omega, by simpa using h.2⟩
    · exact ih c h'
  | case2 s h =>
    rw [chunksOf, dif_neg h]
    simp

theorem scanChunks_chunksOf (content : List Char) (k : Nat) (hk : 0 < k) :
    scanChunks [] (chunksOf k content) = .ok (fullScan content) := by
  rw [scanChunks_eq_fullScan _ [] (chunksOf_elem_ne_nil k content) (Or.inl rfl),
    chunksOf_flatten k content hk, List.nil_append]

theorem fullScan_flatten (content : List Char) :
    (fullScan content).1.flatten ++ (fullScan content).2 = content := by
  rw [fullScan]
  by_cases h : endsWithNL content = true
  · simp [h, flatten_splitlinesKeep]
  · rw [if_neg h]
    by_cases hc : content = []
    · subst hc; rfl
    · have hne : splitlinesKeep content ≠ [] := by
        simpa [splitlinesKeep_eq_nil_iff] using hc
      have hstep : (splitlinesKeep content).dropLast.flatten ++
          (splitlinesKeep content).getLastD [] = (splitlinesKeep content).flatten := by
        conv_rhs => rw [← List.dropLast_append_getLast hne]
        rw [List.flatten_append]
        simp [List.getLastD_eq_getLast?, List.getLast?_eq_getLast _ hne]
      simpa [flatten_splitlinesKeep] using hstep

/-! ### The fetch loops as folds over the cursor offsets -/

theorem get_file_chunk_ok_status {u : Upstream} {sb cs : Nat} {ch : List Char}
    (h : get_file_chunk u sb cs = .ok ch) :
    u.chunkStatus sb = 206 ∨ u.chunkStatus sb = 200 := by
  rw [get_file_chunk] at h
  by_cases hs : u.chunkStatus sb ≠ 206 ∧ u.chunkStatus sb ≠ 200
  · rw [if_pos hs] at h
    exact absurd h (by simp)
  · tauto

theorem fetchOffsets_formula (fs cs : Nat) (hcs : 0 < cs) : ∀ sb,
    fetchOffsets fs cs sb = (List.range ((fs - sb + cs - 1) / cs)).map (fun i => sb + i * cs) := by
  intro sb
  induction sb using fetchOffsets.induct fs cs with
  | case1 sb h ih =>
    rw [fetchOffsets, dif_pos h, ih]
    have hm : 1 ≤ fs - sb := by omega
    have hN : (fs - sb + cs - 1) / cs = (fs - (sb + cs) + cs - 1) / cs + 1 := by
      by_cases hcm : cs ≤ fs - sb
      · have e1 : fs - sb + cs - 1 = (fs - sb - 1) + cs := by omega
        have e2 : fs - (sb + cs) + cs - 1 = fs - sb - 1 := by omega
        rw [e1, e2, Nat.add_div_right _ hcs]
      · have e1 : fs - (sb + cs) = 0 := by omega
        have e2 : (fs - sb + cs - 1) / cs = 1 := by
          apply Nat.div_eq_of_lt_le
          · omega
          · omega
        rw [e1, e2]
        simp [Nat.div_eq_of_lt (show cs - 1 < cs by omega)]
    rw [hN, List.range_succ_eq_map, List.map_cons, List.map_map]
    simp only [Nat.zero_mul, Nat.add_zero]
    congr 1
    apply List.map_congr_left
    intro i _
    simp only [Function.comp_apply, Nat.succ_mul]
    ring
  | case2 sb h =>
    rw [fetchOffsets, dif_neg h]
    have hsb : fs ≤ sb := by
      rcases Decidable.not_and_iff_or_not.mp h with h1 | h1
      · exact absurd hcs h1
      · omega
    have h0 : fs - sb = 0 := by omega
    rw [h0]
    have h1 : (0 + cs - 1) / cs = 0 := Nat.div_eq_of_lt (by omega)
    rw [h1]
    simp

theorem fetchOffsets_lt (fs cs sb : Nat) : ∀ o ∈ fetchOffsets fs cs sb, o < fs := by
  induction sb using fetchOffsets.induct fs cs with
  | case1 sb h ih =>
    rw [fetchOffsets, dif_pos h]
    intro o hm
    rcases List.mem_cons.mp hm with h' | h'
    · subst h'; exact h.2
    · exact ih o h'
  | case2 sb h =>
    rw [fetchOffsets, dif_neg h]
    simp

theorem fetchOffsets_dvd (fs cs sb : Nat) : cs ∣ sb → ∀ o ∈ fetchOffsets fs cs sb, cs ∣ o := by
  induction sb using fetchOffsets.induct fs cs with
  | case1 sb h ih =>
    intro hdvd
    rw [fetchOffsets, dif_pos h]
    intro o hm
    rcases List.mem_cons.mp hm with h' | h'
    · subst h'; exact hdvd
    · exact ih (Dvd.dvd.add hdvd (dvd_refl cs)) o h'
  | case2 sb h =>
    intro _
    rw [fetchOffsets, dif_neg h]
    simp

theorem contentLoop_eq_of_fetchAll (u : Upstream) (fs cs : Nat) :
    ∀ sb acc chs, chunkFetchAll u cs (fetchOffsets fs cs sb) = .ok chs →
      contentLoop u fs cs acc sb = .ok (acc ++ chs.flatten) := by
  intro sb
  induction sb using fetchOffsets.induct fs cs with
  | case1 sb h ih =>
    intro acc chs hfetch
    rw [fetchOffsets, dif_pos h, chunkFetchAll] at hfetch
    rw [contentLoop, dif_pos h]
    cases hch : get_file_chunk u sb cs with
    | error e => rw [hch] at hfetch; exact absurd hfetch (by simp)
    | ok ch =>
      rw [hch] at hfetch
      dsimp only at hfetch
      cases hrest : chunkFetchAll u cs (fetchOffsets fs cs (sb + cs)) with
      | error e => rw [hrest] at hfetch; exact absurd hfetch (by simp)
      | ok chs2 =>
        rw [hrest] at hfetch
        dsimp only at hfetch
        have hchs : chs = ch :: chs2 := by
          cases hfetch; rfl
        subst hchs
        dsimp only
        rw [ih (acc ++ ch) chs2 hrest]
        simp
  | case2 sb h =>
    intro acc chs hfetch
    rw [fetchOffsets, dif_neg h, chunkFetchAll] at hfetch
    have hchs : chs = [] := by cases hfetch; rfl
    subst hchs
    rw [contentLoop, dif_neg h]
    simp

theorem countLoop_eq_of_fetchAll (u : Upstream) (fs cs : Nat) :
    ∀ sb t c chs, chunkFetchAll u cs (fetchOffsets fs cs sb) = .ok chs →
      countLoop u fs cs t c sb =
        (match scanChunks c chs with
         | .error e => .error e
         | .ok (ls, _) => .ok (t + ls.length)) := by
  intro sb
  induction sb using fetchOffsets.induct fs cs with
  | case1 sb h ih =>
    intro t c chs hfetch
    rw [fetchOffsets, dif_pos h, chunkFetchAll] at hfetch
    rw [countLoop, dif_pos h]
    cases hch : get_file_chunk u sb cs with
    | error e => rw [hch] at hfetch; exact absurd hfetch (by simp)
    | ok ch =>
      rw [hch] at hfetch
      dsimp only at hfetch
      cases hrest : chunkFetchAll u cs (fetchOffsets fs cs (sb + cs)) with
      | error e => rw [hrest] at hfetch; exact absurd hfetch (by simp)
      | ok chs2 =>
        rw [hrest] at hfetch
        dsimp only at hfetch
        have hchs : chs = ch :: chs2 := by cases hfetch; rfl
        subst hchs
        rw [scanChunks]
        cases hpc : process_chunk ch c with
        | error e => dsimp only; rw [hpc]
        | ok p =>
          obtain ⟨lines, carry2⟩ := p
          dsimp only
          rw [hpc]
          dsimp only
          rw [ih (t + lines.length) carry2 chs2 hrest]
          cases hsc : scanChunks carry2 chs2 with
          | error e => rfl
          | ok q =>
            obtain ⟨more, fin⟩ := q
            dsimp only
            simp [Nat.add_assoc]
  | case2 sb h =>
    intro t c chs hfetch
    rw [fetchOffsets, dif_neg h, chunkFetchAll] at hfetch
    have hchs : chs = [] := by cases hfetch; rfl
    subst hchs
    rw [countLoop, dif_neg h, scanChunks]
    simp

theorem countLoop_ok_fetchAll (u : Upstream) (fs cs : Nat) :
    ∀ sb t c n, countLoop u fs cs t c sb = .ok n →
      ∃ chs, chunkFetchAll u cs (fetchOffsets fs cs sb) = .ok chs := by
  intro sb
  induction sb using fetchOffsets.induct fs cs with
  | case1 sb h ih =>
    intro t c n hloop
    rw [countLoop, dif_pos h] at hloop
    rw [fetchOffsets, dif_pos h, chunkFetchAll]
    cases hch : get_file_chunk u sb cs with
    | error e => rw [hch] at hloop; exact absurd hloop (by simp)
    | ok ch =>
      rw [hch] at hloop
      dsimp only at hloop
      cases hpc : process_chunk ch c with
      | error e => rw [hpc] at hloop; exact absurd hloop (by simp)
      | ok p =>
        obtain ⟨lines, carry2⟩ := p
        rw [hpc] at hloop
        dsimp only at hloop
        obtain ⟨chs2, hchs2⟩ := ih (t + lines.length) carry2 n hloop
        refine ⟨ch :: chs2, ?_⟩
        dsimp only
        rw [hchs2]
  | case2 sb h =>
    intro t c n _
    rw [fetchOffsets, dif_neg h, chunkFetchAll]
    exact ⟨[], rfl⟩

theorem countLoop_ok_status (u : Upstream) (fs cs : Nat) :
    ∀ sb t c n, countLoop u fs cs t c sb = .ok n →
      ∀ o ∈ fetchOffsets fs cs sb, u.chunkStatus o = 206 ∨ u.chunkStatus o = 200 := by
  intro sb
  induction sb using fetchOffsets.induct fs cs with
  | case1 sb h ih =>
    intro t c n hloop
    rw [countLoop, dif_pos h] at hloop
    rw [fetchOffsets, dif_pos h]
    cases hch : get_file_chunk u sb cs with
    | error e => rw [hch] at hloop; exact absurd hloop (by simp)
    | ok ch =>
      rw [hch] at hloop
      dsimp only at hloop
      cases hpc : process_chunk ch c with
      | error e => rw [hpc] at hloop; exact absurd hloop (by simp)
      | ok p =>
        obtain ⟨lines, carry2⟩ := p
        rw [hpc] at hloop
        dsimp only at hloop
        intro o hm
        rcases List.mem_cons.mp hm with h' | h'
        · subst h'; exact get_file_chunk_ok_status hch
        · exact ih (t + lines.length) carry2 n hloop o h'
  | case2 sb h =>
    intro t c n _
    rw [fetchOffsets, dif_neg h]
    simp

/-! ### UTF-8 decoding facts and evaluation on an honest upstream -/

theorem utf8Decode_ascii_cons {b : Nat} (rest : List Nat) (hb : b ≤ 0x7F) :
    utf8Decode (b :: rest) = (utf8Decode rest).map (fun cs => Char.ofNat b :: cs) := by
  match rest with
  | [] => simp only [utf8Decode]; rw [if_pos hb]; rfl
  | [b2] => simp only [utf8Decode]; rw [if_pos hb]
  | [b2, b3] => simp only [utf8Decode]; rw [if_pos hb]
  | b2 :: b3 :: b4 :: rest2 => simp only [utf8Decode]; rw [if_pos hb]

theorem utf8Decode_ascii (blob : List Nat) (hascii : ∀ b ∈ blob, b ≤ 0x7F) :
    utf8Decode blob = some (asciiChars blob) := by
  induction blob with
  | nil => rfl
  | cons b rest ih =>
    rw [utf8Decode_ascii_cons rest (hascii b (by simp)),
      ih (fun x hx => hascii x (List.mem_cons_of_mem _ hx))]
    rfl

theorem isEmpty_false_of_ne_nil {α : Type} {l : List α} (h : l ≠ []) : l.isEmpty = false := by
  cases l with
  | nil => exact absurd rfl h
  | cons x xs => rfl

theorem ne_nil_of_isEmpty_false {α : Type} {l : List α} (h : l.isEmpty = false) : l ≠ [] := by
  cases l with
  | nil => simp at h
  | cons x xs => simp

theorem utf8Decode_replicate97 (n : Nat) (rest : List Nat) :
    utf8Decode (List.replicate n 97 ++ rest) =
      (utf8Decode rest).map (fun cs => List.replicate n 'a' ++ cs) := by
  induction n with
  | zero =>
    simp only [List.replicate_zero, List.nil_append]
    cases utf8Decode rest with
    | none => rfl
    | some cs => rfl
  | succ m ih =>
    rw [List.replicate_succ, List.cons_append, utf8Decode_ascii_cons _ (by omega), ih]
    cases utf8Decode rest with
    | none => rfl
    | some cs =>
      have h97 : Char.ofNat 97 = 'a' := by decide
      simp [h97, List.replicate_succ]

theorem get_file_chunk_ofBytes (blob : List Nat) (sb cs : Nat)
    (hascii : ∀ b ∈ blob, b ≤ 0x7F) :
    get_file_chunk (Upstream.ofBytes blob) sb cs =
      .ok (asciiChars ((blob.drop sb).take cs)) := by
  rw [get_file_chunk, if_neg (by simp [Upstream.ofBytes])]
  have hsub : ∀ b ∈ (blob.drop sb).take cs, b ≤ 0x7F := fun b hb =>
    hascii b (List.drop_subset _ _ (List.take_subset _ _ hb))
  dsimp only [Upstream.ofBytes]
  rw [utf8Decode_ascii _ hsub]

theorem chunkFetchAll_ofBytes (blob : List Nat) (cs : Nat) (offs : List Nat)
    (hascii : ∀ b ∈ blob, b ≤ 0x7F) :
    chunkFetchAll (Upstream.ofBytes blob) cs offs =
      .ok (offs.map (fun o => asciiChars ((blob.drop o).take cs))) := by
  induction offs with
  | nil => rfl
  | cons o os ih =>
    rw [chunkFetchAll, get_file_chunk_ofBytes blob o cs hascii]
    dsimp only
    rw [ih]
    rfl

theorem map_slices_eq_chunksOf {α : Type} (s : List α) (cs : Nat) (hcs : 0 < cs) :
    ∀ sb, (fetchOffsets s.length cs sb).map (fun o => (s.drop o).take cs) =
      chunksOf cs (s.drop sb) := by
  intro sb
  induction sb using fetchOffsets.induct s.length cs with
  | case1 sb h ih =>
    have hchunk : chunksOf cs (s.drop sb) =
        (s.drop sb).take cs :: chunksOf cs ((s.drop sb).drop cs) := by
      rw [chunksOf, dif_pos ⟨hcs, isEmpty_false_of_ne_nil (by
        intro hx
        rw [List.drop_eq_nil_iff] at hx
        omega)⟩]
    rw [fetchOffsets, dif_pos h, List.map_cons, ih, hchunk, List.drop_drop]
  | case2 sb h =>
    rw [fetchOffsets, dif_neg h, List.map_nil, chunksOf,
      dif_neg (by
        rcases Decidable.not_and_iff_or_not.mp h with h1 | h1
        · exact absurd hcs h1
        · rintro ⟨h2, hx2⟩
          exact ne_nil_of_isEmpty_false hx2 (List.drop_eq_nil_of_le (by omega)))]

theorem github_request_contents_ofBytes (blob : List Nat) :
    github_request_contents (Upstream.ofBytes blob) = .ok blob.length := by
  rw [github_request_contents]
  simp [Upstream.ofBytes]

theorem chunkFetchAll_ofBytes_chunksOf (blob : List Nat) (cs : Nat) (hcs : 0 < cs)
    (hascii : ∀ b ∈ blob, b ≤ 0x7F) :
    chunkFetchAll (Upstream.ofBytes blob) cs (fetchOffsets blob.length cs 0) =
      .ok (chunksOf cs (asciiChars blob)) := by
  rw [chunkFetchAll_ofBytes blob cs _ hascii]
  congr 1
  have h1 : ∀ o, asciiChars ((blob.drop o).take cs) = ((asciiChars blob).drop o).take cs := by
    intro o
    rw [asciiChars, asciiChars, List.map_take, List.map_drop]
  have h2 : blob.length = (asciiChars blob).length := by simp [asciiChars]
  calc (fetchOffsets blob.length cs 0).map (fun o => asciiChars ((blob.drop o).take cs))
      = (fetchOffsets (asciiChars blob).length cs 0).map
          (fun o => ((asciiChars blob).drop o).take cs) := by
        rw [← h2]
        apply List.map_congr_left
        intro o _
        exact h1 o
    _ = chunksOf cs ((asciiChars blob).drop 0) := map_slices_eq_chunksOf _ cs hcs 0
    _ = chunksOf cs (asciiChars blob) := by rw [List.drop_zero]

theorem count_total_lines_sized_ofBytes (blob : List Nat) (cs : Nat) (hcs : 0 < cs)
    (hascii : ∀ b ∈ blob, b ≤ 0x7F) :
    count_total_lines_sized (Upstream.ofBytes blob) cs =
      .ok ((fullScan (asciiChars blob)).1.length) := by
  rw [count_total_lines_sized, github_request_contents_ofBytes]
  dsimp only
  rw [countLoop_eq_of_fetchAll _ _ _ 0 0 [] _
    (chunkFetchAll_ofBytes_chunksOf blob cs hcs hascii)]
  rw [scanChunks_chunksOf _ _ hcs]
  dsimp only
  rw [Nat.zero_add]

theorem count_total_lines_ofBytes (blob : List Nat)
    (hascii : ∀ b ∈ blob, b ≤ 0x7F) :
    count_total_lines (Upstream.ofBytes blob) =
      .ok ((fullScan (asciiChars blob)).1.length) :=
  count_total_lines_sized_ofBytes blob CHUNK_SIZE (by decide) hascii

theorem get_file_content_ofBytes (blob : List Nat)
    (hascii : ∀ b ∈ blob, b ≤ 0x7F) :
    get_file_content (Upstream.ofBytes blob) = .ok (asciiChars blob) := by
  rw [get_file_content, github_request_contents_ofBytes]
  dsimp only
  rw [contentLoop_eq_of_fetchAll _ _ _ 0 [] _
    (chunkFetchAll_ofBytes_chunksOf blob CHUNK_SIZE (by decide) hascii)]
  rw [chunksOf_flatten _ _ (by decide : (0 : Nat) < CHUNK_SIZE), List.nil_append]

/-! ### `splitlinesPlain` versus `splitlinesKeep` -/

theorem splitlinesPlain_crlf (t : List Char) :
    splitlinesPlain ('\r' :: '\n' :: t) = [] :: splitlinesPlain t := by
  rw [splitlinesPlain]
  simp

theorem splitlinesPlain_cons_break {c : Char} (t : List Char) (hc : isLineBreak c = true)
    (hcr : ¬(c = '\r' ∧ t.head? = some '\n')) :
    splitlinesPlain (c :: t) = [] :: splitlinesPlain t := by
  cases t with
  | nil =>
    have heq : splitlinesPlain [c] = if isLineBreak c then [[]] else [[c]] := rfl
    rw [heq, if_pos hc]
    rfl
  | cons d rest =>
    rw [splitlinesPlain, if_neg (by simp at hcr; tauto), if_pos hc]

theorem splitlinesPlain_cons_of_not_break {c : Char} {t l : List Char} {ls : List (List Char)}
    (hc : isLineBreak c = false) (ht : splitlinesPlain t = l :: ls) :
    splitlinesPlain (c :: t) = (c :: l) :: ls := by
  have hcr : c ≠ '\r' := by
    intro h
    rw [h] at hc
    simp [isLineBreak] at hc
  cases t with
  | nil => simp [splitlinesPlain] at ht
  | cons d rest =>
    rw [splitlinesPlain, if_neg (by tauto), if_neg (by simp [hc]), ht]

theorem stripLineEnd_cons_break {c : Char} (l : List Char) (hc : isLineBreak c = true) :
    stripLineEnd (c :: l) = [] := by
  rw [stripLineEnd, List.takeWhile_cons]
  simp [hc]

theorem stripLineEnd_cons_not_break {c : Char} (l : List Char) (hc : isLineBreak c = false) :
    stripLineEnd (c :: l) = c :: stripLineEnd l := by
  rw [stripLineEnd, List.takeWhile_cons]
  simp [hc, stripLineEnd]

theorem splitlinesPlain_eq_map_strip (s : List Char) :
    splitlinesPlain s = (splitlinesKeep s).map stripLineEnd := by
  induction s using splitlinesKeep.induct with
  | case1 => rfl
  | case2 c =>
    rw [splitlinesPlain, splitlinesKeep, List.map_singleton]
    by_cases hc : isLineBreak c = true
    · rw [if_pos hc, stripLineEnd_cons_break [] hc]
    · rw [if_neg hc, stripLineEnd_cons_not_break [] (eq_false_of_ne_true hc)]
      rfl
  | case3 c d rest hcd ih =>
    obtain ⟨hc, hd⟩ := hcd; subst hc; subst hd
    rw [splitlinesPlain_crlf, splitlinesKeep_crlf, List.map_cons, ih,
      stripLineEnd_cons_break _ (by decide)]
  | case4 c d rest h1 h2 ih =>
    have hcr : ¬(c = '\r' ∧ (d :: rest).head? = some '\n') := by
      intro hx
      exact h1 ⟨hx.1, by have h3 := hx.2; simp only [List.head?, Option.some.injEq] at h3; exact h3⟩
    rw [splitlinesPlain_cons_break _ h2 hcr, splitlinesKeep_cons_break _ h2 hcr,
      List.map_cons, ih, stripLineEnd_cons_break _ h2]
  | case5 c d rest h1 h2 heq ih =>
    exact absurd (splitlinesKeep_eq_nil_iff.mp heq) (by simp)
  | case6 c d rest h1 h2 l ls heq ih =>
    have hc : isLineBreak c = false := by simpa using h2
    rw [splitlinesKeep_cons_of_not_break hc heq, List.map_cons,
      stripLineEnd_cons_not_break _ hc]
    have hplain : splitlinesPlain (d :: rest) = stripLineEnd l :: ls.map stripLineEnd := by
      rw [ih, heq, List.map_cons]
    rw [splitlinesPlain_cons_of_not_break hc hplain]

theorem splitlinesPlain_elem_break_free (s : List Char) :
    ∀ e ∈ splitlinesPlain s, ∀ c ∈ e, isLineBreak c = false := by
  rw [splitlinesPlain_eq_map_strip]
  intro e he c hc
  obtain ⟨x, _hx, hxe⟩ := List.mem_map.mp he
  rw [← hxe] at hc
  have := List.mem_takeWhile_imp hc
  simpa using this

theorem splitlinesPlain_length (s : List Char) :
    (splitlinesPlain s).length = (splitlinesKeep s).length := by
  rw [splitlinesPlain_eq_map_strip, List.length_map]

/-! ### Support for the claim theorems -/

theorem take_fullScan_fst (content : List Char) (e : Nat)
    (he : e ≤ (fullScan content).1.length) :
    (splitlinesKeep content).take e = (fullScan content).1.take e := by
  rw [fullScan] at he ⊢
  by_cases h : endsWithNL content = true
  · rw [if_pos h]
  · rw [if_neg h] at he ⊢
    dsimp only at he ⊢
    rw [List.dropLast_eq_take, List.take_take]
    rw [List.length_dropLast] at he
    congr 1
    omega

theorem count_ok_content_ok {u : Upstream} {total : Nat}
    (h : count_total_lines u = .ok total) :
    ∃ content, get_file_content u = .ok content := by
  rw [count_total_lines, count_total_lines_sized] at h
  cases hm : github_request_contents u with
  | error e => rw [hm] at h; exact absurd h (by simp)
  | ok fs =>
    rw [hm] at h
    dsimp only at h
    obtain ⟨chs, hchs⟩ := countLoop_ok_fetchAll u fs CHUNK_SIZE 0 0 [] total h
    refine ⟨[] ++ chs.flatten, ?_⟩
    rw [get_file_content, hm]
    dsimp only
    exact contentLoop_eq_of_fetchAll u fs CHUNK_SIZE 0 [] chs hchs

theorem count_total_lines_fullScan {u : Upstream} {total : Nat}
    (h : count_total_lines u = .ok total) :
    ∃ content, get_file_content u = .ok content
      ∧ total = (fullScan content).1.length := by
  rw [count_total_lines, count_total_lines_sized] at h
  cases hm : github_request_contents u with
  | error e => rw [hm] at h; exact absurd h (by simp)
  | ok fs =>
    rw [hm] at h
    dsimp only at h
    obtain ⟨chs, hchs⟩ := countLoop_ok_fetchAll u fs CHUNK_SIZE 0 0 [] total h
    rw [countLoop_eq_of_fetchAll u fs CHUNK_SIZE 0 0 [] chs hchs] at h
    cases hsc : scanChunks [] chs with
    | error e => rw [hsc] at h; exact absurd h (by simp)
    | ok p =>
      obtain ⟨ls, c2⟩ := p
      rw [hsc] at h
      dsimp only at h
      simp only [Except.ok.injEq] at h
      have hfull := scanChunks_ok_eq_fullScan chs [] (ls, c2) (Or.inl rfl) hsc
      rw [List.nil_append] at hfull
      refine ⟨chs.flatten, ?_, ?_⟩
      · rw [get_file_content, hm]
        dsimp only
        rw [contentLoop_eq_of_fetchAll u fs CHUNK_SIZE 0 [] chs hchs, List.nil_append]
      · have hls : ls = (fullScan chs.flatten).1 := congrArg Prod.fst hfull
        rw [← h, hls, Nat.zero_add]

theorem eval_count_ab : count_total_lines (Upstream.ofBytes [97, 10]) = .ok 1 := by
  rw [count_total_lines_ofBytes _ (by decide)]
  decide

theorem eval_count_abab : count_total_lines (Upstream.ofBytes [97, 10, 98, 10]) = .ok 2 := by
  rw [count_total_lines_ofBytes _ (by decide)]
  decide

theorem eval_content_abab :
    get_file_content (Upstream.ofBytes [97, 10, 98, 10]) = .ok ['a', '\n', 'b', '\n'] := by
  rw [get_file_content_ofBytes _ (by decide)]
  decide

theorem eval_get_lines_abab :
    get_lines_by_range (Upstream.ofBytes [97, 10, 98, 10]) 0 (some 2) =
      .ok ([['a'], ['b']], 2) := by
  rw [get_lines_by_range, eval_count_abab, eval_content_abab]
  decide

theorem eval_get_lines_abc :
    get_lines_by_range (Upstream.ofBytes [97, 10, 98, 10, 99]) 0 none =
      .ok ([['a'], ['b']], 2) := by
  have hcount : count_total_lines (Upstream.ofBytes [97, 10, 98, 10, 99]) = .ok 2 := by
    rw [count_total_lines_ofBytes _ (by decide)]
    decide
  have hcontent : get_file_content (Upstream.ofBytes [97, 10, 98, 10, 99]) =
      .ok ['a', '\n', 'b', '\n', 'c'] := by
    rw [get_file_content_ofBytes _ (by decide)]
    decide
  rw [get_lines_by_range, hcount, hcontent]
  decide

/-! ### The claims -/

/-- Claim C1: the spec scenario asserts that for file content `"a\nb\nc"`
(bytes `97 10 98 10 99`) scanned with chunk size 2 the total line count is 3,
counting the final unterminated carry-over `"c"` as the file's last line.
The code disagrees: `count_total_lines` never adds the final carry-over after
its loop, so it returns 2 (both at chunk size 2 and at the production
`CHUNK_SIZE`), and the full scan yields only the lines `["a\n", "b\n"]` with
`"c"` left in the carry-over.  This theorem evaluates the embedded code at
the claim's own scenario, exhibiting the divergence. -/
theorem thm_C1 :
    count_total_lines_sized (Upstream.ofBytes [97, 10, 98, 10, 99]) 2 = .ok 2
    ∧ count_total_lines (Upstream.ofBytes [97, 10, 98, 10, 99]) = .ok 2
    ∧ scanChunks [] (chunksOf 2 ['a', '\n', 'b', '\n', 'c']) =
        .ok ([['a', '\n'], ['b', '\n']], ['c']) := by
  refine ⟨?_, ?_, ?_⟩
  · rw [count_total_lines_sized_ofBytes _ 2 (by decide) (by decide)]
    decide
  · rw [count_total_lines_ofBytes _ (by decide)]
    decide
  · rw [scanChunks_chunksOf _ 2 (by decide)]
    decide

/-- Claim C2 (reassembly): for every file content and every positive chunk
size, running the `process_chunk` step over all chunks in order from an empty
carry-over succeeds, and concatenating every yielded line followed by the
final carry-over reproduces the content exactly. -/
theorem thm_C2 (content : List Char) (k : Nat) (hk : 0 < k) :
    ∃ lines carry_over,
      scanChunks [] (chunksOf k content) = .ok (lines, carry_over)
      ∧ lines.flatten ++ carry_over = content := by
  refine ⟨(fullScan content).1, (fullScan content).2, ?_, fullScan_flatten content⟩
  rw [scanChunks_chunksOf content k hk]

/-- Witness for C2 at content `"a\nb"` and chunk size 2. -/
theorem thm_C2_witness :
    0 < 2
    ∧ ∃ lines carry_over,
        scanChunks [] (chunksOf 2 ['a', '\n', 'b']) = .ok (lines, carry_over)
        ∧ lines.flatten ++ carry_over = ['a', '\n', 'b'] :=
  ⟨by decide, thm_C2 ['a', '\n', 'b'] 2 (by decide)⟩

/-- Claim C3 (boundary split invariance): for a fixed file content, the
chunked `process_chunk` scan returns the same lines and final carry-over
(hence the same line count) for every positive chunk size — in particular
for 1, 7, 50000, and "whole file in one chunk". -/
theorem thm_C3 (content : List Char) (k1 k2 : Nat) (h1 : 0 < k1) (h2 : 0 < k2) :
    scanChunks [] (chunksOf k1 content) = scanChunks [] (chunksOf k2 content) := by
  rw [scanChunks_chunksOf content k1 h1, scanChunks_chunksOf content k2 h2]

/-- Witness for C3 at content `"a\nb"` with chunk sizes 1 and 7. -/
theorem thm_C3_witness :
    0 < 1 ∧ 0 < 7
    ∧ scanChunks [] (chunksOf 1 ['a', '\n', 'b']) =
        scanChunks [] (chunksOf 7 ['a', '\n', 'b']) :=
  ⟨by decide, by decide, thm_C3 ['a', '\n', 'b'] 1 7 (by decide) (by decide)⟩

/-- Claim C10: the `process_chunk` in `app/utils/file_utils.py` (which takes
raw bytes and decodes them itself) agrees with the `process_chunk` in
`main.py` (which receives already-decoded text) on every byte string that
decodes as UTF-8 and every carry-over. -/
theorem thm_C10 (b : List Nat) (c decoded : List Char)
    (h : utf8Decode b = some decoded) :
    file_utils_process_chunk b c = process_chunk decoded c := by
  rw [file_utils_process_chunk, h, process_chunk]

/-- Witness for C10 at bytes `97 10` (`"a\n"`) and empty carry-over. -/
theorem thm_C10_witness :
    utf8Decode [97, 10] = some ['a', '\n']
    ∧ file_utils_process_chunk [97, 10] [] = process_chunk ['a', '\n'] [] :=
  ⟨by decide, thm_C10 [97, 10] [] ['a', '\n'] (by decide)⟩

/-- Counterexample for C4: on the file `"a\nb\n"`, `get_lines(0, 2)` returns
`["a", "b"]` — the first returned line `"a"` is not the final line of the
file, yet its last character is `a` rather than a line terminator, because
`get_lines_by_range` splits with Python `splitlines()` which strips the
terminators. -/
theorem cex_C4 :
    get_lines_by_range (Upstream.ofBytes [97, 10, 98, 10]) 0 (some 2) =
      .ok ([['a'], ['b']], 2)
    ∧ (['a'] : List Char).getLast? = some 'a'
    ∧ isLineBreak 'a' = false :=
  ⟨eval_get_lines_abab, by decide, by decide⟩

/-- Claim C4 as amended: no line returned by `get_lines_by_range` contains
any line-terminator character at all (in particular no returned line keeps a
trailing terminator) — the route splits with Python `splitlines()`, which
strips every terminator. -/
theorem thm_C4 (u : Upstream) (s : Int) (e : Option Int)
    (lines : List (List Char)) (total : Nat)
    (h : get_lines_by_range u s e = .ok (lines, total)) :
    ∀ line ∈ lines, ∀ c ∈ line, isLineBreak c = false := by
  rw [get_lines_by_range] at h
  cases hc : count_total_lines u with
  | error err => rw [hc] at h; exact absurd h (by simp)
  | ok t =>
    rw [hc] at h
    dsimp only at h
    by_cases hrange : s < 0 ∨ (t : Int) ≤ s
    · rw [if_pos hrange] at h
      exact absurd h (by simp)
    · rw [if_neg hrange] at h
      cases hct : get_file_content u with
      | error err => rw [hct] at h; exact absurd h (by simp)
      | ok content =>
        rw [hct] at h
        dsimp only at h
        simp only [Except.ok.injEq, Prod.mk.injEq] at h
        intro line hline c hcmem
        have hline2 : line ∈ splitlinesPlain content := by
          rw [← h.1] at hline
          exact List.take_subset _ _ (List.drop_subset _ _ hline)
        exact splitlinesPlain_elem_break_free content line hline2 c hcmem

/-- Witness for the amended C4 on the file `"a\nb\n"`: the characters of the
two returned lines are break-free. -/
theorem thm_C4_witness :
    isLineBreak 'a' = false ∧ isLineBreak 'b' = false :=
  ⟨thm_C4 (Upstream.ofBytes [97, 10, 98, 10]) 0 (some 2) [['a'], ['b']] 2
      eval_get_lines_abab ['a'] (by decide) 'a' (by decide),
    thm_C4 (Upstream.ofBytes [97, 10, 98, 10]) 0 (some 2) [['a'], ['b']] 2
      eval_get_lines_abab ['b'] (by decide) 'b' (by decide)⟩

/-- Counterexample for C5, exhibiting both divergences from the claim.  First,
on the file `"a\nb\n"` the full-scan LineBuffer is `["a\n", "b\n"]`, but
`get_lines(0, 2)` returns `["a", "b"]`: the terminators are stripped, so the
result is not the `[0, 2)` slice of the LineBuffer.  Second, on the file
`"a\nb\nc"` (no trailing newline), `get_lines(0, omitted)` returns only
`["a", "b"]` even though `splitlines()` of the content is `["a", "b", "c"]`:
the omitted `end_line` is clamped to the `count_total_lines` total `2`, which
misses the unterminated final line `"c"`. -/
theorem cex_C5 :
    (get_lines_by_range (Upstream.ofBytes [97, 10, 98, 10]) 0 (some 2) =
        .ok ([['a'], ['b']], 2)
      ∧ (fullScan (asciiChars [97, 10, 98, 10])).1 = [['a', '\n'], ['b', '\n']]
      ∧ ([['a'], ['b']] : List (List Char)) ≠ [['a', '\n'], ['b', '\n']])
    ∧ (get_lines_by_range (Upstream.ofBytes [97, 10, 98, 10, 99]) 0 none =
        .ok ([['a'], ['b']], 2)
      ∧ splitlinesPlain (asciiChars [97, 10, 98, 10, 99]) = [['a'], ['b'], ['c']]
      ∧ ([['a'], ['b']] : List (List Char)) ≠ [['a'], ['b'], ['c']]) :=
  ⟨⟨eval_get_lines_abab, by decide, by decide⟩,
   ⟨eval_get_lines_abc, by decide, by decide⟩⟩

theorem pySlice_plain_eq (content : List Char) (s e : Nat)
    (hs : s ≤ (fullScan content).1.length) (he : e ≤ (fullScan content).1.length) :
    pySlice (splitlinesPlain content) (s : Int) (e : Int) =
      (((fullScan content).1.take e).drop s).map stripLineEnd := by
  have hlenkeep : (fullScan content).1.length ≤ (splitlinesKeep content).length := by
    rw [fullScan]
    by_cases h : endsWithNL content = true
    · rw [if_pos h]
    · rw [if_neg h]
      dsimp only
      rw [List.length_dropLast]
      omega
  have hL : (splitlinesPlain content).length = (splitlinesKeep content).length :=
    splitlinesPlain_length content
  have hidx : ∀ n : Nat, n ≤ (fullScan content).1.length →
      pyIdx (splitlinesPlain content).length (n : Int) = n := by
    intro n hn
    rw [pyIdx, if_neg (by omega), Int.toNat_natCast, hL]
    omega
  rw [pySlice, hidx s hs, hidx e he, splitlinesPlain_eq_map_strip, ← List.map_take,
    ← List.map_drop, take_fullScan_fst content e he]

/-- Claim C5 as amended: `get_lines_by_range` does follow slice semantics with
clamping, but against the terminator-stripped `splitlines()` list, not the
full-scan LineBuffer, and the clamp bound is the `count_total_lines` total
(which omits an unterminated final carry-over line).  Concretely, for every
upstream file on which the counting pass and the content retrieval succeed:
the total equals the full-scan LineBuffer length of the content, and for
`0 ≤ start_line < total`, `get_lines(start_line, end_line)` returns the
`[start_line, min(end_line, total))` slice of the full-scan LineBuffer with
each line's terminator removed; an omitted or oversized `end_line` is clamped
to the total, so an unterminated final carry-over line (absent from the
LineBuffer) is never returned. -/
theorem thm_C5 (u : Upstream) (total s e : Nat) (content : List Char)
    (hcount : count_total_lines u = .ok total)
    (hcontent : get_file_content u = .ok content)
    (hs : s < total) :
    total = (fullScan content).1.length
    ∧ (e ≤ total →
        get_lines_by_range u (s : Int) (some (e : Int)) =
          .ok ((((fullScan content).1.take e).drop s).map stripLineEnd, total))
    ∧ (total ≤ e →
        get_lines_by_range u (s : Int) (some (e : Int)) =
          .ok (((fullScan content).1.drop s).map stripLineEnd, total))
    ∧ get_lines_by_range u (s : Int) none =
        .ok (((fullScan content).1.drop s).map stripLineEnd, total) := by
  obtain ⟨content2, hcontent2, htot⟩ := count_total_lines_fullScan hcount
  have hc2 : content2 = content := Except.ok.inj (hcontent2.symm.trans hcontent)
  subst hc2
  have hrange : ¬((s : Int) < 0 ∨ (total : Int) ≤ (s : Int)) := by
    omega
  refine ⟨htot, ?_, ?_, ?_⟩
  · intro he
    rw [get_lines_by_range, hcount]
    dsimp only
    rw [if_neg hrange]
    rw [hcontent]
    dsimp only
    rw [if_neg (by omega)]
    rw [pySlice_plain_eq _ s e (by omega) (by omega)]
  · intro he
    rw [get_lines_by_range, hcount]
    dsimp only
    rw [if_neg hrange]
    rw [hcontent]
    dsimp only
    have hend : (if (total : Int) < ((e : Nat) : Int) then (total : Int)
        else ((e : Nat) : Int)) = (total : Int) := by
      by_cases hx : (total : Int) < ((e : Nat) : Int)
      · rw [if_pos hx]
      · rw [if_neg hx]
        omega
    rw [hend, pySlice_plain_eq _ s total (by omega) (by omega), htot, List.take_length]
  · rw [get_lines_by_range, hcount]
    dsimp only
    rw [if_neg hrange]
    rw [hcontent]
    dsimp only
    rw [pySlice_plain_eq _ s total (by omega) (by omega), htot, List.take_length]

/-- Witness for the amended C5 on the file `"a\nb\n"` with `start_line = 0`:
the counted total `2` is the full-scan LineBuffer length, and the omitted
`end_line` query returns the whole terminator-stripped LineBuffer tail. -/
theorem thm_C5_witness :
    (2 : Nat) = (fullScan ['a', '\n', 'b', '\n']).1.length
    ∧ get_lines_by_range (Upstream.ofBytes [97, 10, 98, 10]) ((0 : Nat) : Int) none =
        .ok (((fullScan ['a', '\n', 'b', '\n']).1.drop 0).map stripLineEnd, 2) := by
  have h := thm_C5 (Upstream.ofBytes [97, 10, 98, 10]) 2 0 1 ['a', '\n', 'b', '\n']
    eval_count_abab eval_content_abab (by decide)
  exact ⟨h.1, h.2.2.2⟩

/-- Claim C6 (range rejection): whenever `count_total_lines` yields a total,
`get_lines_by_range` fails with the 400 range error exactly when
`start_line < 0` or `start_line ≥ total` (never returning a truncated
result), and for every in-range `start_line` it succeeds with lines and the
same total — no `RangeError` is raised. -/
theorem thm_C6 (u : Upstream) (total : Nat) (s : Int) (e : Option Int)
    (hcount : count_total_lines u = .ok total) :
    ((s < 0 ∨ (total : Int) ≤ s) →
      get_lines_by_range u s e = .error (.http 400 (rangeErrDetail total)))
    ∧ ((0 ≤ s ∧ s < (total : Int)) →
        ∃ lines, get_lines_by_range u s e = .ok (lines, total)) := by
  constructor
  · intro hrange
    rw [get_lines_by_range, hcount]
    dsimp only
    rw [if_pos hrange]
  · rintro ⟨h0, hlt⟩
    obtain ⟨content, hcontent⟩ := count_ok_content_ok hcount
    rw [get_lines_by_range, hcount]
    dsimp only
    rw [if_neg (by omega)]
    rw [hcontent]
    dsimp only
    exact ⟨_, rfl⟩

/-- Witness for C6: on the two-line file `"a\n"` (total 1), requesting
`start_line = 2` yields the 400 range error. -/
theorem thm_C6_witness :
    get_lines_by_range (Upstream.ofBytes [97, 10]) 2 none =
      .error (.http 400 (rangeErrDetail 1)) :=
  (thm_C6 (Upstream.ofBytes [97, 10]) 1 2 none eval_count_ab).1 (by decide)

/-- Claim C7 (failure atomicity): whenever the metadata request does not
return an accepted status, or any chunk fetch at one of the loop offsets
returns a status other than 206/200, both `count_total_lines` and
`get_lines_by_range` fail with an error (the `Except` result carries no
partial lines).  In particular a 404 on the metadata fetch makes both fail
with the 404 propagated unchanged — for every blob and chunk oracle, i.e.
without any chunk being fetched. -/
theorem thm_C7 (u : Upstream) (s : Int) (e : Option Int) :
    ((¬(u.metadataStatus = 200 ∨ u.metadataStatus = 201 ∨ u.metadataStatus = 204)
        ∨ ∃ o ∈ fetchOffsets u.fileSize CHUNK_SIZE 0,
            ¬(u.chunkStatus o = 206 ∨ u.chunkStatus o = 200)) →
      (∃ err, count_total_lines u = .error err)
      ∧ ∃ err, get_lines_by_range u s e = .error err)
    ∧ (u.metadataStatus = 404 →
        count_total_lines u = .error (.http 404 u.metadataBody)
        ∧ get_lines_by_range u s e = .error (.http 404 u.metadataBody)) := by
  have hprop : ∀ err, count_total_lines u = .error err →
      get_lines_by_range u s e = .error err := by
    intro err hc
    rw [get_lines_by_range, hc]
  constructor
  · intro hbad
    cases hres : count_total_lines u with
    | error err => exact ⟨⟨err, rfl⟩, ⟨err, hprop err hres⟩⟩
    | ok n =>
      exfalso
      rw [count_total_lines, count_total_lines_sized] at hres
      cases hm : github_request_contents u with
      | error e2 => rw [hm] at hres; exact absurd hres (by simp)
      | ok fs =>
        rw [hm] at hres
        dsimp only at hres
        have hmeta_ok : u.metadataStatus = 200 ∨ u.metadataStatus = 201
            ∨ u.metadataStatus = 204 := by
          by_contra hx
          rw [github_request_contents, if_neg hx] at hm
          exact absurd hm (by simp)
        have hfs : fs = u.fileSize := by
          rw [github_request_contents, if_pos hmeta_ok] at hm
          simp only [Except.ok.injEq] at hm
          exact hm.symm
        have hstat := countLoop_ok_status u fs CHUNK_SIZE 0 0 [] n hres
        rcases hbad with hb | ⟨o, ho, hbo⟩
        · exact hb hmeta_ok
        · rw [← hfs] at ho
          exact hbo (hstat o ho)
  · intro h404
    have hmeta : github_request_contents u = .error (.http 404 u.metadataBody) := by
      rw [github_request_contents, if_neg (by rw [h404]; decide), h404]
    have hcount : count_total_lines u = .error (.http 404 u.metadataBody) := by
      rw [count_total_lines, count_total_lines_sized, hmeta]
    exact ⟨hcount, hprop _ hcount⟩

/-- Witness for C7: an upstream whose metadata request 404s (blob and chunk
statuses arbitrary — here a 2-byte blob with happily answering chunk
endpoint) fails both operations with the 404 propagated unchanged. -/
theorem thm_C7_witness :
    count_total_lines ⟨404, "Not Found", 5, [97, 10], fun _ => 206⟩ =
      .error (.http 404 "Not Found")
    ∧ get_lines_by_range ⟨404, "Not Found", 5, [97, 10], fun _ => 206⟩ 0 none =
        .error (.http 404 "Not Found") :=
  (thm_C7 ⟨404, "Not Found", 5, [97, 10], fun _ => 206⟩ 0 none).2 rfl

/-- Claim C8 (ChunkCursor invariant): for every file size and positive chunk
size, the loop's fetch offsets are exactly `0, chunk_size, 2*chunk_size, …`,
i.e. `ceil(file_size / chunk_size)` fetches in total, every offset being a
multiple of the chunk size and strictly below the file size (the loop stops
as soon as the offset reaches the file size, and in particular terminates). -/
theorem thm_C8 (file_size chunk_size : Nat) (hcs : 0 < chunk_size) :
    fetchOffsets file_size chunk_size 0 =
      (List.range ((file_size + chunk_size - 1) / chunk_size)).map (fun i => i * chunk_size)
    ∧ (fetchOffsets file_size chunk_size 0).length = (file_size + chunk_size - 1) / chunk_size
    ∧ ∀ o ∈ fetchOffsets file_size chunk_size 0, o < file_size ∧ chunk_size ∣ o := by
  have hform := fetchOffsets_formula file_size chunk_size hcs 0
  simp only [Nat.sub_zero] at hform
  have hform2 : fetchOffsets file_size chunk_size 0 =
      (List.range ((file_size + chunk_size - 1) / chunk_size)).map (fun i => i * chunk_size) := by
    rw [hform]
    apply List.map_congr_left
    intro i _
    omega
  refine ⟨hform2, by rw [hform2]; simp, fun o ho => ⟨fetchOffsets_lt _ _ _ o ho,
    fetchOffsets_dvd _ _ _ (dvd_zero chunk_size) o ho⟩⟩

/-- Witness for C8 at file size 120001 and the production `CHUNK_SIZE`
(50000): exactly 3 fetches. -/
theorem thm_C8_witness :
    (fetchOffsets 120001 CHUNK_SIZE 0).length = (120001 + CHUNK_SIZE - 1) / CHUNK_SIZE :=
  (thm_C8 120001 CHUNK_SIZE (by decide)).2.1

theorem Upstream_ofBytes_blob (blob : List Nat) : (Upstream.ofBytes blob).blob = blob := rfl

/-- Claim C9: because each fetched chunk is UTF-8-decoded in isolation, there
is a file whose whole byte content is valid UTF-8 (here 49999 `a` bytes
followed by the two-byte encoding `0xC3 0xA9` of `é`, 50001 bytes in all)
on which both the content retrieval and the line count fail with a decoding
error: the first 50000-byte chunk ends in the middle of the multi-byte
character, so its isolated decode raises `UnicodeDecodeError`. -/
theorem thm_C9 :
    ∃ blob : List Nat,
      (utf8Decode blob).isSome = true
      ∧ CHUNK_SIZE < blob.length
      ∧ get_file_content (Upstream.ofBytes blob) = .error .unicodeDecodeError
      ∧ count_total_lines (Upstream.ofBytes blob) = .error .unicodeDecodeError := by
  have hlen : (List.replicate 49999 97 ++ [195, 169]).length = 50001 := by
    rw [List.length_append, List.length_replicate]
    decide
  have hchunk0 : get_file_chunk (Upstream.ofBytes (List.replicate 49999 97 ++ [195, 169]))
      0 CHUNK_SIZE = .error .unicodeDecodeError := by
    rw [get_file_chunk, if_neg (fun hx => hx.1 rfl), Upstream_ofBytes_blob, List.drop_zero]
    have htake : (List.replicate 49999 97 ++ [195, 169]).take CHUNK_SIZE =
        List.replicate 49999 97 ++ [195] := by
      have hc : CHUNK_SIZE = (List.replicate (49999 : Nat) (97 : Nat)).length + 1 := by
        rw [List.length_replicate]
        decide
      rw [hc, List.take_append]
      exact congrArg (fun t => List.replicate 49999 97 ++ t) rfl
    rw [htake, utf8Decode_replicate97]
    rw [show utf8Decode [195] = none from rfl]
    rfl
  refine ⟨List.replicate 49999 97 ++ [195, 169], ?_, ?_, ?_, ?_⟩
  · rw [utf8Decode_replicate97]
    rw [show utf8Decode [195, 169] = some [utf8Char2 195 169] from rfl]
    rfl
  · rw [hlen]
    decide
  · rw [get_file_content, github_request_contents_ofBytes]
    dsimp only
    rw [contentLoop, dif_pos ⟨by decide, by omega⟩, hchunk0]
  · rw [count_total_lines, count_total_lines_sized, github_request_contents_ofBytes]
    dsimp only
    rw [countLoop, dif_pos ⟨by decide, by omega⟩, hchunk0]

end FountainProxy